import Mathlib

/-!
# A verification development for the tinybuf serialization library

This file gives a shallow embedding of the tinybuf type-and-codec engine
(`builtin_types.py` and `user_types.py`) and proves properties of it.

Modelling conventions:
* a Python byte stream is a `List Nat` of byte values; generators that
  yield bytes become functions returning `List Nat`;
* Python's arbitrary-precision non-negative integers are `Nat`, signed
  integers are `Int`;
* a decode function consumes a prefix of the byte list and returns the
  remaining suffix, mirroring the single-use forward iterator of the source;
* decode/encode paths that raise a Python exception return `Except`.
-/

namespace Tinybuf

/-- `UnsignedInt.to_bytes` from `builtin_types.py`: LEB128-style varint
encoding.  Each step emits the low 7 bits; the continuation bit 0x80 is set
when more bytes follow.  The Python loop is do-while, so `0` encodes as
`[0]`. -/
def UnsignedInt.toBytes (n : Nat) : List Nat :=
  -- next_byte = n & 0b0111_1111 ; n >>= 7 ; if n: next_byte |= 0b1000_0000
  let next_byte := n &&& 127
  let n2 := n >>> 7
  if n2 = 0 then [next_byte]
  else (next_byte ||| 128) :: UnsignedInt.toBytes n2
  termination_by n
  decreasing_by
    simp only [Nat.shiftRight_eq_div_pow] at *
    omega

/-- The recursive worker of `UnsignedInt.read` from `builtin_types.py`:
`number` and `offset` are the loop state; exhausting the stream simply ends
the `for` loop and returns the accumulated number. -/
def UnsignedInt.readAux : Nat → Nat → List Nat → Nat × List Nat
  | number, _, [] => (number, [])
  | number, offset, byte :: rest =>
    -- should_read_more = byte & 0b1000_0000
    -- number |= (byte & 0b0111_1111) << offset ; offset += 7
    let number2 := number ||| ((byte &&& 127) <<< offset)
    if byte &&& 128 ≠ 0 then UnsignedInt.readAux number2 (offset + 7) rest
    else (number2, rest)

/-- `UnsignedInt.read` from `builtin_types.py`.  Returns the decoded value
together with the bytes left unconsumed by the iterator. -/
def UnsignedInt.read (bs : List Nat) : Nat × List Nat :=
  UnsignedInt.readAux 0 0 bs

/-- `Boolean.to_bytes` from `builtin_types.py`: the integer encoding of the
Python `bool`. -/
def Boolean.toBytes (b : Bool) : List Nat :=
  UnsignedInt.toBytes (if b then 1 else 0)

/-- `Boolean.read` from `builtin_types.py`: `bool(UnsignedInt.read(...))`,
so any nonzero decoded integer is `true`. -/
def Boolean.read (bs : List Nat) : Bool × List Nat :=
  let p := UnsignedInt.read bs
  (p.1 != 0, p.2)

/-- `SignedInt.to_bytes` from `builtin_types.py`: a boolean sign flag
(`n >= 0`) followed by the varint encoding of `abs(n)`. -/
def SignedInt.toBytes (n : Int) : List Nat :=
  Boolean.toBytes (decide (0 ≤ n)) ++ UnsignedInt.toBytes n.natAbs

/-- `SignedInt.read` from `builtin_types.py`. -/
def SignedInt.read (bs : List Nat) : Int × List Nat :=
  let p := Boolean.read bs
  let q := UnsignedInt.read p.2
  (if p.1 then (q.1 : Int) else -(q.1 : Int), q.2)

/-- UTF-8 encoding of a Unicode scalar value, as the host language's
`str.encode("utf-8")` produces it byte by byte. -/
def utf8EncodeCp (n : Nat) : List Nat :=
  if n < 128 then [n]
  else if n < 2048 then [192 ||| (n >>> 6), 128 ||| (n &&& 63)]
  else if n < 65536 then
    [224 ||| (n >>> 12), 128 ||| ((n >>> 6) &&& 63), 128 ||| (n &&& 63)]
  else
    [240 ||| (n >>> 18), 128 ||| ((n >>> 12) &&& 63),
     128 ||| ((n >>> 6) &&& 63), 128 ||| (n &&& 63)]

/-- Strict UTF-8 decoding of one scalar value from the front of a byte list,
rejecting truncated sequences, stray continuation bytes, overlong forms,
surrogates and out-of-range values, as the host language's strict
`bytes.decode("utf-8")` does. -/
def utf8DecodeCp : List Nat → Option (Nat × List Nat)
  | [] => none
  | b0 :: rest =>
    if b0 < 128 then some (b0, rest)
    else if b0 < 194 then none
    else if b0 < 224 then
      match rest with
      | b1 :: rest1 =>
        if 128 ≤ b1 ∧ b1 < 192 then some ((b0 - 192) * 64 + (b1 - 128), rest1)
        else none
      | [] => none
    else if b0 < 240 then
      match rest with
      | b1 :: b2 :: rest2 =>
        if (128 ≤ b1 ∧ b1 < 192) ∧ (128 ≤ b2 ∧ b2 < 192) then
          let n := (b0 - 224) * 4096 + (b1 - 128) * 64 + (b2 - 128)
          if n < 2048 ∨ (55296 ≤ n ∧ n < 57344) then none else some (n, rest2)
        else none
      | _ => none
    else if b0 < 245 then
      match rest with
      | b1 :: b2 :: b3 :: rest3 =>
        if (128 ≤ b1 ∧ b1 < 192) ∧ (128 ≤ b2 ∧ b2 < 192) ∧
            (128 ≤ b3 ∧ b3 < 192) then
          let n := (b0 - 240) * 262144 + (b1 - 128) * 4096 +
            (b2 - 128) * 64 + (b3 - 128)
          if n < 65536 ∨ 1114111 < n then none else some (n, rest3)
        else none
      | _ => none
    else none

/-- The byte sequence `"".join`-style concatenation of per-character UTF-8
encodings: the model of Python's `text.encode("utf-8")`. -/
def utf8Encode : List Char → List Nat
  | [] => []
  | c :: cs => utf8EncodeCp c.toNat ++ utf8Encode cs

/-- Termination fact for the UTF-8 decoding loop: a successful
single-scalar decode consumes at least one byte. -/
def utf8DecodeCp_consumes : ∀ (bs : List Nat) (n : Nat) (rest : List Nat),
    utf8DecodeCp bs = some (n, rest) → rest.length < bs.length := by
  intro bs n rest h
  match bs with
  | [] => simp [utf8DecodeCp] at h
  | b0 :: t =>
    simp only [utf8DecodeCp] at h
    split_ifs at h with h1 h2 h3 h4 h5
    · simp at h
      simp [← h.2]
    · match t with
      | [] => simp at h
      | b1 :: t1 =>
        simp only at h
        split_ifs at h
        simp at h
        simp [← h.2]
        omega
    · match t with
      | [] => simp at h
      | [b1] => simp at h
      | b1 :: b2 :: t2 =>
        simp only at h
        split_ifs at h
        simp at h
        simp [← h.2]
        omega
    · match t with
      | [] => simp at h
      | [b1] => simp at h
      | [b1, b2] => simp at h
      | b1 :: b2 :: b3 :: t3 =>
        simp only at h
        split_ifs at h
        simp at h
        simp [← h.2]
        omega

/-- Decode an entire byte list as UTF-8 text; the model of Python's strict
`bytes.decode("utf-8")`, failing on any malformed or trailing input. -/
def utf8DecodeAll (bs : List Nat) : Option (List Char) :=
  match bs with
  | [] => some []
  | b :: t =>
    match hd : utf8DecodeCp (b :: t) with
    | none => none
    | some (n, rest) =>
      match utf8DecodeAll rest with
      | none => none
      | some cs => some (Char.ofNat n :: cs)
  termination_by bs.length
  decreasing_by
    exact utf8DecodeCp_consumes _ n rest hd

/-- `String.read_n_bytes` from `builtin_types.py`: take exactly `n` bytes
from the stream; running out of bytes raises. -/
def read_n_bytes : Nat → List Nat → Option (List Nat × List Nat)
  | 0, bs => some ([], bs)
  | _ + 1, [] => none
  | n + 1, b :: bs =>
    match read_n_bytes n bs with
    | none => none
    | some (taken, rest) => some (b :: taken, rest)

/-- Errors a decode can raise, mirroring the Python exceptions. -/
inductive DecErr where
  /-- the byte source ran out before a value was complete -/
  | malformedInput : DecErr
  /-- a string body was not valid UTF-8 -/
  | invalidUtf8 : DecErr
  /-- `Map.read_key` met a key with no `MapEntrySpec` -/
  | unknownKey (key : Nat) : DecErr
  deriving DecidableEq

/-- `String.to_bytes` from `builtin_types.py`: varint byte length followed
by the UTF-8 bytes. -/
def Str.toBytes (text : String) : List Nat :=
  let encoded := utf8Encode text.data
  UnsignedInt.toBytes encoded.length ++ encoded

/-- `String.read` from `builtin_types.py`: read a varint length, take that
many bytes, UTF-8 decode them. -/
def Str.read (bs : List Nat) : Except DecErr (String × List Nat) :=
  let p := UnsignedInt.read bs
  match read_n_bytes p.1 p.2 with
  | none => .error .malformedInput
  | some (body, rest) =>
    match utf8DecodeAll body with
    | none => .error .invalidUtf8
    | some cs => .ok (String.mk cs, rest)

/-- Type descriptors: the closed set of codecs of `builtin_types.py` —
the four scalar builtins, the two higher-order combinators, and `Map`
record types.  A map's entry specifications mirror `MapEntrySpec`:
`(key, name, value_type)` triples. -/
inductive Ty where
  | uint : Ty
  | sint : Ty
  | boolean : Ty
  | str : Ty
  | list (inner : Ty) : Ty
  | opt (inner : Ty) : Ty
  | map (entry_specs : List (Nat × String × Ty)) : Ty

/-- `MapEntrySpec` from `builtin_types.py`: key, name, value_type. -/
abbrev MapEntrySpec := Nat × String × Ty

def specKey (s : MapEntrySpec) : Nat := s.1

def specName (s : MapEntrySpec) : String := s.2.1

def specTy (s : MapEntrySpec) : Ty := s.2.2

/-- Runtime values: a Python dict (or the `_records` of a user-type
instance) is an insertion-ordered association list. -/
inductive Value where
  | uint (n : Nat) : Value
  | sint (i : Int) : Value
  | bool (b : Bool) : Value
  | str (s : String) : Value
  | list (elems : List Value) : Value
  | opt (v : Option Value) : Value
  | map (entries : List (String × Value)) : Value

/-- Python dict assignment `d[name] = value`: an existing key keeps its
position and gets the new value; a fresh key is appended. -/
def dictInsert (d : List (String × Value)) (k : String) (v : Value) :
    List (String × Value) :=
  if d.any (fun p => p.1 == k) then
    d.map (fun p => if p.1 == k then (k, v) else p)
  else d ++ [(k, v)]

/-- The dict comprehension `specs_by_name` in `Map.to_bytes`: for a
duplicated name the last spec wins, hence the reversed search. -/
def specForName (specs : List MapEntrySpec) (name : String) :
    Option MapEntrySpec :=
  specs.reverse.find? (fun s => specName s == name)

/-- The linear scan of `Map.read_key`: the first spec with the key. -/
def specForKey (specs : List MapEntrySpec) (key : Nat) :
    Option MapEntrySpec :=
  specs.find? (fun s => specKey s == key)

/-- The key view of a Python dict built by successive insertions: first
occurrence order, duplicates collapsed. -/
def dedupNames (names : List String) : List String :=
  names.foldl (fun acc n => if acc.contains n then acc else acc ++ [n]) []

/-- The set symmetric difference `seen_keys ^ specs_by_name.keys()`. -/
def symmDiffNames (xs ys : List String) : List String :=
  xs.filter (fun x => !ys.contains x) ++ ys.filter (fun y => !xs.contains y)

/-- Errors an encode can raise, mirroring the Python exceptions in
`Map.to_bytes`. -/
inductive EncErr where
  /-- `specs_by_name[name]` found no spec for a field name -/
  | keyError (name : String) : EncErr
  /-- the `ValueError` for unfilled necessary parameters, carrying the
  offending symmetric difference of name sets -/
  | incompleteValue (names : List String) : EncErr
  /-- the value's shape does not match the descriptor (a host-level type
  error in Python) -/
  | typeMismatch : EncErr
  deriving DecidableEq

mutual

/-- `to_bytes` of each codec from `builtin_types.py`, dispatched over the
closed descriptor set.  The `Map` case follows `Map.to_bytes`: emit the
entry count, then per input-dict entry the spec key and encoded value
(failing on a name with no spec), and finally fail if the symmetric
difference between written names and declared names is non-empty. -/
def toBytes : Ty → Value → Except EncErr (List Nat)
  | .uint, .uint n => .ok (UnsignedInt.toBytes n)
  | .sint, .sint i => .ok (SignedInt.toBytes i)
  | .boolean, .bool b => .ok (Boolean.toBytes b)
  | .str, .str s => .ok (Str.toBytes s)
  | .list t, .list vs =>
    match toBytesList t vs with
    | .error e => .error e
    | .ok body => .ok (UnsignedInt.toBytes vs.length ++ body)
  | .opt _, .opt none => .ok (Boolean.toBytes false)
  | .opt t, .opt (some v) =>
    match toBytes t v with
    | .error e => .error e
    | .ok body => .ok (Boolean.toBytes true ++ body)
  | .map specs, .map d =>
    match toBytesEntries specs d with
    | .error e => .error e
    | .ok body =>
      let seen := dedupNames (d.map Prod.fst)
      let declared := dedupNames (specs.map specName)
      let diff := symmDiffNames seen declared
      if diff.isEmpty then .ok (UnsignedInt.toBytes d.length ++ body)
      else .error (.incompleteValue diff)
  | _, _ => .error .typeMismatch
  termination_by t v => sizeOf v

/-- The loop of `List.to_bytes`: concatenated inner encodings. -/
def toBytesList : Ty → List Value → Except EncErr (List Nat)
  | _, [] => .ok []
  | t, v :: vs =>
    match toBytes t v with
    | .error e => .error e
    | .ok b =>
      match toBytesList t vs with
      | .error e => .error e
      | .ok bs => .ok (b ++ bs)
  termination_by t vs => sizeOf vs

/-- The per-entry loop of `Map.to_bytes`. -/
def toBytesEntries : List MapEntrySpec → List (String × Value) →
    Except EncErr (List Nat)
  | _, [] => .ok []
  | specs, (n, v) :: d =>
    match specForName specs n with
    | none => .error (.keyError n)
    | some spec =>
      match toBytes (specTy spec) v with
      | .error e => .error e
      | .ok b =>
        match toBytesEntries specs d with
        | .error e => .error e
        | .ok bs => .ok (UnsignedInt.toBytes (specKey spec) ++ b ++ bs)
  termination_by specs d => sizeOf d

end

mutual

/-- `read` of each codec from `builtin_types.py`.  All decoders consume a
single forward byte stream and return the suffix left over.  The `Map`
case follows `Map.read_as_dict`: read the entry count, then per entry a
key, whose spec is looked up by linear scan (`Map.read_key`; a missing
key raises `KeyError`), then the value, accumulated by dict insertion. -/
def read : Ty → List Nat → Except DecErr (Value × List Nat)
  | .uint, bs => let p := UnsignedInt.read bs; .ok (.uint p.1, p.2)
  | .sint, bs => let p := SignedInt.read bs; .ok (.sint p.1, p.2)
  | .boolean, bs => let p := Boolean.read bs; .ok (.bool p.1, p.2)
  | .str, bs =>
    match Str.read bs with
    | .error e => .error e
    | .ok (s, rest) => .ok (.str s, rest)
  | .list t, bs =>
    let p := UnsignedInt.read bs
    match readList t p.1 p.2 with
    | .error e => .error e
    | .ok (vs, rest) => .ok (.list vs, rest)
  | .opt t, bs =>
    let p := Boolean.read bs
    if p.1 then
      match read t p.2 with
      | .error e => .error e
      | .ok (v, rest) => .ok (.opt (some v), rest)
    else .ok (.opt none, p.2)
  | .map specs, bs =>
    let p := UnsignedInt.read bs
    match readEntries specs p.1 p.2 [] with
    | .error e => .error e
    | .ok (d, rest) => .ok (.map d, rest)
  termination_by t _ => (sizeOf t, 0)

/-- The loop of `List.read`: read `n` inner values in sequence. -/
def readList : Ty → Nat → List Nat → Except DecErr (List Value × List Nat)
  | _, 0, bs => .ok ([], bs)
  | t, n + 1, bs =>
    match read t bs with
    | .error e => .error e
    | .ok (v, rest) =>
      match readList t n rest with
      | .error e => .error e
      | .ok (vs, rest2) => .ok (v :: vs, rest2)
  termination_by t n _ => (sizeOf t, n + 1)

/-- The loop of `Map.read_as_dict` with `Map.read_key` inlined. -/
def readEntries (specs : List MapEntrySpec) :
    Nat → List Nat → List (String × Value) →
      Except DecErr (List (String × Value) × List Nat)
  | 0, bs, map_data => .ok (map_data, bs)
  | n + 1, bs, map_data =>
    let p := UnsignedInt.read bs
    match h : specForKey specs p.1 with
    | none => .error (.unknownKey p.1)
    | some spec =>
      have hsz : sizeOf (specTy spec) < sizeOf specs := by
        have hmem : spec ∈ specs := List.mem_of_find?_eq_some h
        have hlt : sizeOf spec < sizeOf specs := List.sizeOf_lt_of_mem hmem
        obtain ⟨k2, nm2, ty2⟩ := spec
        simp only [specTy]
        simp only [Prod.mk.sizeOf_spec] at hlt
        omega
      match read (specTy spec) p.2 with
      | .error e => .error e
      | .ok (v, rest) =>
        readEntries specs n rest (dictInsert map_data (specName spec) v)
  termination_by n _ _ => (sizeOf specs, n)

end

/-- Uniqueness of a name list, as Python dict keys are unique. -/
def distinctNames : List String → Bool
  | [] => true
  | n :: rest => !rest.contains n && distinctNames rest

/-- Uniqueness of the numeric keys of a spec list (the data-model
invariant: lookups by key must be unambiguous). -/
def distinctKeys : List MapEntrySpec → Bool
  | [] => true
  | s :: rest => !(rest.map specKey).contains (specKey s) && distinctKeys rest

def subsetNames (xs ys : List String) : Bool :=
  xs.all (fun x => ys.contains x)

mutual

/-- A value conforms to a type descriptor.  For a record this is the
encode contract of `Map.to_bytes` plus the data-model invariants: the
dict's names are unique and coincide (as a set) with the declared spec
names, the spec names and keys are unique, and each entry's value
conforms to the type of the spec that `specs_by_name` yields for its
name. -/
def hasTy : Value → Ty → Bool
  | .uint _, .uint => true
  | .sint _, .sint => true
  | .bool _, .boolean => true
  | .str _, .str => true
  | .list vs, .list t => hasTyList vs t
  | .opt none, .opt _ => true
  | .opt (some v), .opt t => hasTy v t
  | .map d, .map specs =>
    distinctNames (d.map Prod.fst) && distinctNames (specs.map specName) &&
    distinctKeys specs &&
    subsetNames (d.map Prod.fst) (specs.map specName) &&
    subsetNames (specs.map specName) (d.map Prod.fst) &&
    hasTyEntries d specs
  | _, _ => false
  termination_by v t => sizeOf v

def hasTyList : List Value → Ty → Bool
  | [], _ => true
  | v :: vs, t => hasTy v t && hasTyList vs t
  termination_by vs t => sizeOf vs

def hasTyEntries : List (String × Value) → List MapEntrySpec → Bool
  | [], _ => true
  | (n, v) :: d, specs =>
    (match specForName specs n with
     | none => false
     | some spec => hasTy v (specTy spec)) && hasTyEntries d specs
  termination_by d specs => sizeOf d

end

/-- The characters of `IGNORED_CHARACTERS` in `user_types.py`: the
parentheses, colon, period, hyphen and slash. -/
def ignoredChars : List Char := ['(', ')', ':', '.', '-', '/']

/-- Python's `line.replace(char, " ")` for a single character. -/
def pyReplaceChar (cs : List Char) (old : Char) : List Char :=
  cs.map fun c => if c = old then ' ' else c

/-- Python's `line.strip()`: drop leading and trailing whitespace. -/
def pyStripChars (cs : List Char) : List Char :=
  ((cs.dropWhile Char.isWhitespace).reverse.dropWhile Char.isWhitespace).reverse

/-- Python's no-argument `str.split()`: split on whitespace runs,
producing no empty tokens. -/
def splitWsAux : List Char → List Char → List (List Char)
  | [], cur => if cur.isEmpty then [] else [cur.reverse]
  | c :: rest, cur =>
    if c.isWhitespace then
      if cur.isEmpty then splitWsAux rest []
      else cur.reverse :: splitWsAux rest []
    else splitWsAux rest (c :: cur)

/-- Python's `str.lower()` on the ASCII tokens of a schema. -/
def pyLower (s : String) : String :=
  String.mk (s.data.map Char.toLower)

/-- Python's `int()` on the plain digit tokens the schema grammar
produces. -/
def pyParseNat (s : String) : Option Nat :=
  if s.data ≠ [] ∧ s.data.all Char.isDigit then
    some (s.data.foldl (fun a c => a * 10 + (c.toNat - 48)) 0)
  else none

/-- The `BUILTINS` table of `builtin_types.py`. -/
def lookupBuiltin : String → Option Ty
  | "string" => some .str
  | "int" => some .uint
  | "sint" => some .sint
  | "bool" => some .boolean
  | _ => none

/-- The `HIGHER_ORDER` table of `builtin_types.py`. -/
def lookupHigherOrder : String → Option (Ty → Ty)
  | "list" => some .list
  | "optional" => some .opt
  | _ => none

/-- `compute_type` from `user_types.py`: recursively resolve a type
description token sequence.  A one-token sequence collapses to the bare
token and is looked up among the builtins, then among the user's types
(modelled as already-resolved record types, since opening schema files is
an external collaborator's concern); a longer sequence is a higher-order
type applied to the recursively resolved remaining tokens (an unknown
higher-order name is the Python `KeyError`); anything else is the
`ValueError` for an unknown type. -/
def compute_type (value_type : List String) (user_types : List (String × Ty)) :
    Except String Ty :=
  match value_type with
  | [t] =>
    match lookupBuiltin t with
    | some ty => .ok ty
    | none =>
      match user_types.find? (fun p => p.1 == t) with
      | some p => .ok p.2
      | none => .error "Type not found"
  | [] => .error "Type not found"
  | outer :: inner =>
    match lookupHigherOrder outer with
    | none => .error "unknown higher-order type"
    | some ho =>
      match compute_type inner user_types with
      | .error e => .error e
      | .ok t => .ok (ho t)

/-- The property-line branch of `map_info_from_lines` from
`user_types.py`: strip the line, blank out the ignored punctuation, split
into whitespace-separated tokens, parse the first as the integer key, take
the second as the name, and lower-case the remaining type tokens. -/
def parse_property_line (line : String) :
    Except String (Nat × String × List String) :=
  let stripped := pyStripChars line.data
  let cleaned := ignoredChars.foldl pyReplaceChar stripped
  let tokens := (splitWsAux cleaned []).map (fun l => String.mk l)
  match tokens with
  | key :: name :: value_type =>
    match pyParseNat key with
    | some k => .ok (k, name, value_type.map pyLower)
    | none => .error "invalid integer key"
  | _ => .error "line does not declare a property"

/-- One line of `Map.from_lines`: parse a property line and resolve its
type into a `MapEntrySpec`, with no imported user types in scope. -/
def resolve_line (line : String) : Except String MapEntrySpec :=
  match parse_property_line line with
  | .error e => .error e
  | .ok (k, name, value_type) =>
    match compute_type value_type [] with
    | .error e => .error e
    | .ok ty => .ok (k, name, ty)

/-- Normal form of `UnsignedInt.toBytes` in terms of `%` and `/`. -/
theorem UnsignedInt.toBytes_eq (n : Nat) :
    UnsignedInt.toBytes n =
      if n / 128 = 0 then [n % 128]
      else (n % 128 + 128) :: UnsignedInt.toBytes (n / 128) := by
  rw [UnsignedInt.toBytes]
  have h127 : n &&& 127 = n % 128 := Nat.and_pow_two_sub_one_eq_mod n 7
  have h7 : n >>> 7 = n / 128 := Nat.shiftRight_eq_div_pow n 7
  have hlor : n % 128 ||| 128 = n % 128 + 128 := by
    have := Nat.mul_add_lt_is_or (b := n % 128) (i := 7) (by omega) 1
    simpa [Nat.lor_comm, Nat.add_comm] using this.symm
  simp only [h127, h7, hlor]

theorem UnsignedInt.toBytes_ne_nil (n : Nat) : UnsignedInt.toBytes n ≠ [] := by
  rw [UnsignedInt.toBytes_eq]
  split <;> simp

/-- Bytes produced by the varint encoder are genuine byte values. -/
theorem UnsignedInt.toBytes_lt_256 (n : Nat) :
    ∀ b ∈ UnsignedInt.toBytes n, b < 256 := by
  induction n using Nat.strong_induction_on with
  | _ n ih =>
    rw [UnsignedInt.toBytes_eq]
    split
    · intro b hb
      simp only [List.mem_singleton] at hb
      omega
    · intro b hb
      rcases List.mem_cons.mp hb with h | h
      · omega
      · exact ih (n / 128) (by omega) b h

theorem and127_eq (x : Nat) : x &&& 127 = x % 128 :=
  Nat.and_pow_two_sub_one_eq_mod x 7

theorem and128_of_lt (x : Nat) (h : x < 128) : x &&& 128 = 0 := by
  have heq : x &&& 2 ^ 7 = (x.testBit 7).toNat * 2 ^ 7 := Nat.and_two_pow x 7
  rw [Nat.testBit_lt_two_pow h] at heq
  simpa using heq

theorem and128_of_ge (x : Nat) (h : 128 ≤ x) (h2 : x < 256) : x &&& 128 = 128 := by
  have heq : x &&& 2 ^ 7 = (x.testBit 7).toNat * 2 ^ 7 := Nat.and_two_pow x 7
  have ht : x.testBit 7 = true := by
    rw [Nat.testBit_to_div_mod]
    simp only [decide_eq_true_eq]
    omega
  rw [ht] at heq
  simpa using heq

/-- Accumulating a shifted group into disjoint low bits is addition. -/
theorem lor_small_eq_add (a x k : Nat) (h : a < 2 ^ k) :
    a ||| x <<< k = a + x * 2 ^ k := by
  rw [Nat.shiftLeft_eq, Nat.lor_comm, mul_comm]
  rw [← Nat.mul_add_lt_is_or h x]
  omega

/-- The varint reader undoes the varint writer, starting from any
accumulator state whose bits lie below `offset`. -/
theorem UnsignedInt.readAux_toBytes (n : Nat) :
    ∀ acc offset rest, acc < 2 ^ offset →
      UnsignedInt.readAux acc offset (UnsignedInt.toBytes n ++ rest) =
        (acc + n * 2 ^ offset, rest) := by
  induction n using Nat.strong_induction_on with
  | _ n ih =>
    intro acc offset rest hacc
    rw [UnsignedInt.toBytes_eq]
    by_cases hsmall : n / 128 = 0
    · have hn : n < 128 := by omega
      rw [if_pos hsmall, Nat.mod_eq_of_lt hn, List.singleton_append]
      simp only [UnsignedInt.readAux, and128_of_lt n hn, ne_eq, not_true_eq_false,
        ite_false, and127_eq, Nat.mod_eq_of_lt hn, not_false_eq_true]
      rw [lor_small_eq_add acc n offset hacc]
    · rw [if_neg hsmall, List.cons_append]
      have hb1 : (n % 128 + 128) &&& 128 = 128 :=
        and128_of_ge _ (by omega) (by omega)
      have hb2 : (n % 128 + 128) &&& 127 = n % 128 := by
        rw [and127_eq]; omega
      simp only [UnsignedInt.readAux, hb1, hb2, ne_eq, OfNat.ofNat_ne_zero,
        not_false_eq_true, ite_true]
      rw [lor_small_eq_add acc (n % 128) offset hacc]
      have hlt : n / 128 < n := by omega
      have hacc2 : acc + n % 128 * 2 ^ offset < 2 ^ (offset + 7) := by
        rw [pow_add]
        have h1 : n % 128 * 2 ^ offset ≤ 127 * 2 ^ offset :=
          Nat.mul_le_mul_right _ (by omega)
        have h2 : (0:Nat) < 2 ^ offset := Nat.pos_pow_of_pos _ (by omega)
        nlinarith
      rw [ih (n / 128) hlt _ _ rest hacc2]
      have hpow : (2:Nat) ^ (offset + 7) = 2 ^ offset * 128 := by
        rw [pow_add]; norm_num
      rw [hpow]
      have hkey : n % 128 * 2 ^ offset + n / 128 * (2 ^ offset * 128)
          = n * 2 ^ offset := by
        conv_rhs => rw [← Nat.div_add_mod n 128]
        ring
      have : acc + n % 128 * 2 ^ offset + n / 128 * (2 ^ offset * 128)
          = acc + n * 2 ^ offset := by linarith
      rw [this]

/-- Varint round-trip: decoding the encoding of `n` yields `n` and consumes
exactly the encoded bytes. -/
theorem UnsignedInt.read_toBytes (n : Nat) (rest : List Nat) :
    UnsignedInt.read (UnsignedInt.toBytes n ++ rest) = (n, rest) := by
  unfold UnsignedInt.read
  rw [UnsignedInt.readAux_toBytes n 0 0 rest (by norm_num)]
  simp

theorem Boolean.roundtrip_bool (b : Bool) (rest : List Nat) :
    Boolean.read (Boolean.toBytes b ++ rest) = (b, rest) := by
  unfold Boolean.read Boolean.toBytes
  rw [UnsignedInt.read_toBytes]
  cases b <;> simp

theorem SignedInt.roundtrip_int (n : Int) (rest : List Nat) :
    SignedInt.read (SignedInt.toBytes n ++ rest) = (n, rest) := by
  unfold SignedInt.read SignedInt.toBytes
  rw [List.append_assoc, Boolean.roundtrip_bool]
  simp only
  rw [UnsignedInt.read_toBytes]
  by_cases h : 0 ≤ n
  · simp [h, Int.natAbs_of_nonneg h]
  · have : (n.natAbs : Int) = -n := by omega
    simp [h, this]

theorem and63_eq (x : Nat) : x &&& 63 = x % 64 :=
  Nat.and_pow_two_sub_one_eq_mod x 6

theorem shr6_eq (x : Nat) : x >>> 6 = x / 64 := by
  rw [Nat.shiftRight_eq_div_pow]

theorem shr12_eq (x : Nat) : x >>> 12 = x / 4096 := by
  rw [Nat.shiftRight_eq_div_pow]

theorem shr18_eq (x : Nat) : x >>> 18 = x / 262144 := by
  rw [Nat.shiftRight_eq_div_pow]

theorem lor_lead192 (x : Nat) (hx : x < 64) : 192 ||| x = 192 + x := by
  have := (Nat.mul_add_lt_is_or (i := 6) (b := x) (by omega) 3).symm
  norm_num at this
  exact this

theorem lor_lead224 (x : Nat) (hx : x < 32) : 224 ||| x = 224 + x := by
  have := (Nat.mul_add_lt_is_or (i := 5) (b := x) (by omega) 7).symm
  norm_num at this
  exact this

theorem lor_lead240 (x : Nat) (hx : x < 16) : 240 ||| x = 240 + x := by
  have := (Nat.mul_add_lt_is_or (i := 4) (b := x) (by omega) 15).symm
  norm_num at this
  exact this

theorem lor_lead128 (x : Nat) (hx : x < 128) : 128 ||| x = 128 + x := by
  have := (Nat.mul_add_lt_is_or (i := 7) (b := x) (by omega) 1).symm
  norm_num at this
  exact this

theorem utf8EncodeCp_eq (n : Nat) (hn : n < 1114112) :
    utf8EncodeCp n =
      if n < 128 then [n]
      else if n < 2048 then [192 + n / 64, 128 + n % 64]
      else if n < 65536 then
        [224 + n / 4096, 128 + n / 64 % 64, 128 + n % 64]
      else
        [240 + n / 262144, 128 + n / 4096 % 64, 128 + n / 64 % 64,
         128 + n % 64] := by
  have hm : ∀ x : Nat, 128 ||| (x &&& 63) = 128 + x % 64 := fun x => by
    rw [and63_eq]; exact lor_lead128 _ (by omega)
  unfold utf8EncodeCp
  by_cases h1 : n < 128
  · simp [h1]
  · by_cases h2 : n < 2048
    · rw [if_neg h1, if_neg h1, if_pos h2, if_pos h2, shr6_eq,
        lor_lead192 _ (by omega), hm]
    · by_cases h3 : n < 65536
      · rw [if_neg h1, if_neg h1, if_neg h2, if_neg h2, if_pos h3, if_pos h3,
          shr12_eq, shr6_eq, lor_lead224 _ (by omega), and63_eq, hm,
          lor_lead128 _ (by omega)]
      · rw [if_neg h1, if_neg h1, if_neg h2, if_neg h2, if_neg h3, if_neg h3,
          shr18_eq, shr12_eq, shr6_eq, lor_lead240 _ (by omega), and63_eq,
          and63_eq, hm, lor_lead128 _ (by omega), lor_lead128 _ (by omega)]

/-- Decoding undoes encoding for every valid Unicode scalar value. -/
theorem utf8DecodeCp_encodeCp (n : Nat) (hv : Nat.isValidChar n)
    (rest : List Nat) :
    utf8DecodeCp (utf8EncodeCp n ++ rest) = some (n, rest) := by
  have hn : n < 1114112 := by
    rcases hv with h | h
    · omega
    · omega
  rw [utf8EncodeCp_eq n hn]
  by_cases h1 : n < 128
  · simp only [if_pos h1, List.singleton_append, utf8DecodeCp, if_pos h1]
  · by_cases h2 : n < 2048
    · simp only [if_neg h1, if_pos h2, List.cons_append, List.nil_append]
      simp only [utf8DecodeCp]
      have c1 : ¬ (192 + n / 64 < 128) := by omega
      have c2 : ¬ (192 + n / 64 < 194) := by omega
      have c3 : 192 + n / 64 < 224 := by omega
      rw [if_neg c1, if_neg c2, if_pos c3]
      have c4 : 128 ≤ 128 + n % 64 ∧ 128 + n % 64 < 192 := by omega
      rw [if_pos c4]
      have : (192 + n / 64 - 192) * 64 + (128 + n % 64 - 128) = n := by omega
      rw [this]
    · by_cases h3 : n < 65536
      · have hs : ¬ (55296 ≤ n ∧ n < 57344) := by
          rcases hv with h | h
          · omega
          · omega
        simp only [if_neg h1, if_neg h2, if_pos h3, List.cons_append,
          List.nil_append]
        simp only [utf8DecodeCp]
        have c1 : ¬ (224 + n / 4096 < 128) := by omega
        have c2 : ¬ (224 + n / 4096 < 194) := by omega
        have c3 : ¬ (224 + n / 4096 < 224) := by omega
        have c4 : 224 + n / 4096 < 240 := by omega
        rw [if_neg c1, if_neg c2, if_neg c3, if_pos c4]
        have c5 : (128 ≤ 128 + n / 64 % 64 ∧ 128 + n / 64 % 64 < 192) ∧
            (128 ≤ 128 + n % 64 ∧ 128 + n % 64 < 192) := by omega
        rw [if_pos c5]
        have hval : (224 + n / 4096 - 224) * 4096 +
            (128 + n / 64 % 64 - 128) * 64 + (128 + n % 64 - 128) = n := by
          omega
        simp only [hval]
        rw [if_neg (by omega)]
      · simp only [if_neg h1, if_neg h2, if_neg h3, List.cons_append,
          List.nil_append]
        simp only [utf8DecodeCp]
        have c1 : ¬ (240 + n / 262144 < 128) := by omega
        have c2 : ¬ (240 + n / 262144 < 194) := by omega
        have c3 : ¬ (240 + n / 262144 < 224) := by omega
        have c4 : ¬ (240 + n / 262144 < 240) := by omega
        have c5 : 240 + n / 262144 < 245 := by omega
        rw [if_neg c1, if_neg c2, if_neg c3, if_neg c4, if_pos c5]
        have c6 : (128 ≤ 128 + n / 4096 % 64 ∧ 128 + n / 4096 % 64 < 192) ∧
            (128 ≤ 128 + n / 64 % 64 ∧ 128 + n / 64 % 64 < 192) ∧
            (128 ≤ 128 + n % 64 ∧ 128 + n % 64 < 192) := by omega
        rw [if_pos c6]
        have hval : (240 + n / 262144 - 240) * 262144 +
            (128 + n / 4096 % 64 - 128) * 4096 +
            (128 + n / 64 % 64 - 128) * 64 + (128 + n % 64 - 128) = n := by
          omega
        simp only [hval]
        rw [if_neg (by omega)]

theorem utf8EncodeCp_ne_nil (n : Nat) : utf8EncodeCp n ≠ [] := by
  unfold utf8EncodeCp
  split_ifs <;> simp

/-- Decoding an encoded character stream yields the original characters. -/
theorem utf8DecodeAll_encode (cs : List Char) :
    utf8DecodeAll (utf8Encode cs) = some cs := by
  induction cs with
  | nil => simp [utf8Encode, utf8DecodeAll]
  | cons c cs ih =>
    have hv : Nat.isValidChar c.toNat := by
      have := c.valid
      exact this
    have hcp := utf8DecodeCp_encodeCp c.toNat hv (utf8Encode cs)
    rw [utf8Encode]
    have hne : utf8EncodeCp c.toNat ≠ [] := utf8EncodeCp_ne_nil _
    match hE : utf8EncodeCp c.toNat with
    | [] => exact absurd hE hne
    | b :: t =>
      rw [hE] at hcp
      simp only [List.cons_append]
      simp only [List.cons_append] at hcp
      simp only [utf8DecodeAll]
      split
      · rename_i heq
        rw [hcp] at heq
        simp at heq
      · rename_i n' rest' heq
        rw [hcp] at heq
        simp only [Option.some.injEq, Prod.mk.injEq] at heq
        obtain ⟨h1, h2⟩ := heq
        subst h1
        subst h2
        rw [ih]
        simp [Char.ofNat_toNat]

theorem read_n_bytes_append (xs : List Nat) :
    ∀ rest, read_n_bytes xs.length (xs ++ rest) = some (xs, rest) := by
  induction xs with
  | nil => intro rest; simp [read_n_bytes]
  | cons x xs ih => intro rest; simp [read_n_bytes, ih rest]

theorem Str.roundtrip_string (s : String) (rest : List Nat) :
    Str.read (Str.toBytes s ++ rest) = .ok (s, rest) := by
  unfold Str.read Str.toBytes
  simp only [List.append_assoc]
  rw [UnsignedInt.read_toBytes]
  simp only [read_n_bytes_append, utf8DecodeAll_encode]

theorem UnsignedInt.read_toBytes_nil (n : Nat) :
    UnsignedInt.read (UnsignedInt.toBytes n) = (n, []) := by
  have := UnsignedInt.read_toBytes n []
  simpa using this

/-- C2: for every supported scalar value — every `Nat` (arbitrary
precision) for UnsignedInt, every `Int` for SignedInt, both booleans for
Boolean, and every string (empty and non-ASCII included) for String —
decoding the bytes produced by encoding the value returns the value. -/
theorem scalar_decode_encode :
    (∀ n : Nat, UnsignedInt.read (UnsignedInt.toBytes n) = (n, [])) ∧
    (∀ i : Int, SignedInt.read (SignedInt.toBytes i) = (i, [])) ∧
    (∀ b : Bool, Boolean.read (Boolean.toBytes b) = (b, [])) ∧
    (∀ s : String, Str.read (Str.toBytes s) = .ok (s, [])) := by
  refine ⟨UnsignedInt.read_toBytes_nil, ?_, ?_, ?_⟩
  · intro i
    have := SignedInt.roundtrip_int i []
    simpa using this
  · intro b
    have := Boolean.roundtrip_bool b []
    simpa using this
  · intro s
    have := Str.roundtrip_string s []
    simpa using this

/-- C3 (counterexample): decoding an empty source, or a source exhausted
with the continuation bit still set, does not fail — `UnsignedInt.read`
returns the accumulated integer. -/
theorem unsignedInt_read_exhausted_returns_value :
    UnsignedInt.read [] = (0, []) ∧ UnsignedInt.read [130] = (2, []) := by
  constructor <;> rfl

theorem UnsignedInt.readAux_all_continuation :
    ∀ bs acc offset, (∀ b ∈ bs, b &&& 128 ≠ 0) →
      ∃ n, UnsignedInt.readAux acc offset bs = (n, []) := by
  intro bs
  induction bs with
  | nil => intro acc offset _; exact ⟨acc, rfl⟩
  | cons b t ih =>
    intro acc offset hall
    have hb : b &&& 128 ≠ 0 := hall b (List.mem_cons_self b t)
    simp only [UnsignedInt.readAux, hb, ne_eq, not_false_eq_true, ite_true]
    exact ih _ _ (fun x hx => hall x (List.mem_cons_of_mem b hx))

/-- C3 (amended): for every byte source exhausted before a byte with the
continuation bit clear — the empty source included — `UnsignedInt.read`
does not fail: it returns the integer accumulated from the bytes read,
having consumed the whole source. -/
theorem unsignedInt_read_all_continuation (bs : List Nat)
    (h : ∀ b ∈ bs, b &&& 128 ≠ 0) :
    ∃ n, UnsignedInt.read bs = (n, []) :=
  UnsignedInt.readAux_all_continuation bs 0 0 h

theorem unsignedInt_read_all_continuation_witness :
    (∀ b ∈ [130, 142], b &&& 128 ≠ 0) ∧
      ∃ n, UnsignedInt.read [130, 142] = (n, []) :=
  ⟨by decide, unsignedInt_read_all_continuation [130, 142] (by decide)⟩

/-- C6: `UnsignedInt` encodes `18178` as exactly the bytes
`[0b10000010, 0b10001110, 0b00000001]`, and decodes those bytes back to
`18178`. -/
theorem unsignedInt_encode_18178 :
    UnsignedInt.toBytes 18178 = [130, 142, 1] ∧
      UnsignedInt.read [130, 142, 1] = (18178, []) := by
  constructor
  · rw [UnsignedInt.toBytes_eq]
    norm_num
    rw [UnsignedInt.toBytes_eq]
    norm_num
    rw [UnsignedInt.toBytes_eq]
    norm_num
  · rfl

/-- C9: zero and negative zero encode with sign flag `true` (non-negative)
followed by the varint encoding of `0`; and whatever the sign flag in the
input bytes, a decoded magnitude of `0` yields the integer `0` — decode
never produces a distinct negative zero. -/
theorem signedInt_zero_normalization :
    SignedInt.toBytes 0 = Boolean.toBytes true ++ UnsignedInt.toBytes 0 ∧
    SignedInt.toBytes (-0) = Boolean.toBytes true ++ UnsignedInt.toBytes 0 ∧
    ∀ bs : List Nat, (UnsignedInt.read (Boolean.read bs).2).1 = 0 →
      (SignedInt.read bs).1 = 0 := by
  refine ⟨rfl, rfl, ?_⟩
  intro bs h
  unfold SignedInt.read
  simp only [h]
  split <;> simp

theorem signedInt_zero_normalization_witness :
    (UnsignedInt.read (Boolean.read [0, 0]).2).1 = 0 ∧
      (SignedInt.read [0, 0]).1 = 0 :=
  ⟨by decide, signedInt_zero_normalization.2.2 [0, 0] (by decide)⟩

theorem specForName_eq_some {specs : List MapEntrySpec} {n : String}
    {spec : MapEntrySpec} (h : specForName specs n = some spec) :
    specName spec = n ∧ spec ∈ specs := by
  constructor
  · have := List.find?_some h
    simpa using this
  · have := List.mem_of_find?_eq_some h
    exact List.mem_reverse.mp this

theorem specForKey_of_mem {specs : List MapEntrySpec} {spec : MapEntrySpec}
    (hdk : distinctKeys specs = true) (hmem : spec ∈ specs) :
    specForKey specs (specKey spec) = some spec := by
  induction specs with
  | nil => cases hmem
  | cons s rest ih =>
    simp only [distinctKeys, Bool.and_eq_true, Bool.not_eq_true'] at hdk
    rcases List.mem_cons.mp hmem with h | h
    · subst h
      simp [specForKey, List.find?]
    · have hne : specKey s ≠ specKey spec := by
        intro he
        have : (rest.map specKey).contains (specKey s) = true := by
          rw [he]
          exact List.elem_iff.mpr (List.mem_map_of_mem specKey h)
        rw [hdk.1] at this
        cases this
      simp only [specForKey, List.find?]
      rw [show (specKey s == specKey spec) = false from beq_eq_false_iff_ne.mpr hne]
      exact ih hdk.2 h

theorem distinctNames_iff (l : List String) :
    distinctNames l = true ↔ l.Nodup := by
  induction l with
  | nil => simp [distinctNames]
  | cons n rest ih =>
    simp only [distinctNames, Bool.and_eq_true, Bool.not_eq_true',
      List.nodup_cons, ih]
    constructor
    · rintro ⟨h1, h2⟩
      refine ⟨fun hmem => ?_, h2⟩
      have hc : rest.contains n = true := List.elem_iff.mpr hmem
      rw [hc] at h1
      cases h1
    · rintro ⟨h1, h2⟩
      refine ⟨?_, h2⟩
      by_cases hc : rest.contains n
      · exact absurd (List.elem_iff.mp hc) h1
      · simpa using hc

theorem subsetNames_iff (xs ys : List String) :
    subsetNames xs ys = true ↔ ∀ x ∈ xs, x ∈ ys := by
  simp only [subsetNames, List.all_eq_true]
  constructor
  · intro h x hx
    exact List.elem_iff.mp (h x hx)
  · intro h x hx
    exact List.elem_iff.mpr (h x hx)

theorem mem_dictInsert_keys_append (d : List (String × Value)) (k : String)
    (v : Value) (hnot : (d.map Prod.fst).contains k = false) :
    dictInsert d k v = d ++ [(k, v)] := by
  unfold dictInsert
  have : d.any (fun p => p.1 == k) = false := by
    rw [List.any_eq_false]
    intro p hp
    intro hbeq
    have : p.1 = k := by simpa using hbeq
    rw [← this] at hnot
    have : (d.map Prod.fst).contains p.1 = true :=
      List.elem_iff.mpr (List.mem_map_of_mem Prod.fst hp)
    rw [hnot] at this
    cases this
  rw [this]
  simp

theorem mem_dedupNames_foldl (l : List String) :
    ∀ acc x, (x ∈ l.foldl
      (fun acc n => if acc.contains n then acc else acc ++ [n]) acc ↔
      x ∈ acc ∨ x ∈ l) := by
  induction l with
  | nil => intro acc x; simp
  | cons n rest ih =>
    intro acc x
    simp only [List.foldl_cons]
    rw [ih]
    by_cases hc : acc.contains n
    · rw [if_pos hc]
      have hn : n ∈ acc := List.elem_iff.mp hc
      constructor
      · rintro (h | h)
        · exact Or.inl h
        · exact Or.inr (List.mem_cons_of_mem n h)
      · rintro (h | h)
        · exact Or.inl h
        · rcases List.mem_cons.mp h with rfl | h
          · exact Or.inl hn
          · exact Or.inr h
    · rw [if_neg hc]
      simp only [List.mem_append, List.mem_singleton, List.mem_cons]
      tauto

theorem mem_dedupNames (l : List String) (x : String) :
    x ∈ dedupNames l ↔ x ∈ l := by
  unfold dedupNames
  rw [mem_dedupNames_foldl]
  simp

theorem symmDiffNames_nil {xs ys : List String}
    (h1 : ∀ x ∈ xs, x ∈ ys) (h2 : ∀ y ∈ ys, y ∈ xs) :
    symmDiffNames xs ys = [] := by
  unfold symmDiffNames
  rw [List.append_eq_nil]
  constructor
  · rw [List.filter_eq_nil_iff]
    intro a ha
    simp only [Bool.not_eq_true', Bool.not_eq_false]
    exact List.elem_iff.mpr (h1 a ha)
  · rw [List.filter_eq_nil_iff]
    intro a ha
    simp only [Bool.not_eq_true', Bool.not_eq_false]
    exact List.elem_iff.mpr (h2 a ha)

theorem toBytesList_roundTrip (t : Ty) (vs : List Value)
    (hel : ∀ v ∈ vs, hasTy v t = true →
      ∃ out, toBytes t v = .ok out ∧
        ∀ rest, read t (out ++ rest) = .ok (v, rest))
    (hty : hasTyList vs t = true) :
    ∃ body, toBytesList t vs = .ok body ∧
      ∀ rest, readList t vs.length (body ++ rest) = .ok (vs, rest) := by
  induction vs with
  | nil => exact ⟨[], by simp [toBytesList], fun rest => by simp [readList]⟩
  | cons v vs ih =>
    simp only [hasTyList, Bool.and_eq_true] at hty
    obtain ⟨out, hout, hread⟩ := hel v (List.mem_cons_self v vs) hty.1
    obtain ⟨body, hbody, hreadl⟩ :=
      ih (fun w hw hty2 => hel w (List.mem_cons_of_mem _ hw) hty2) hty.2
    refine ⟨out ++ body, ?_, ?_⟩
    · simp only [toBytesList, hout, hbody]
    · intro rest
      simp only [List.length_cons, readList, List.append_assoc, hread, hreadl]

theorem contains_eq_false_of_not_mem {l : List String} {x : String}
    (h : x ∉ l) : l.contains x = false := by
  by_cases hc : l.contains x
  · exact absurd (List.elem_iff.mp hc) h
  · simpa using hc

theorem not_mem_of_contains_eq_false {l : List String} {x : String}
    (h : l.contains x = false) : x ∉ l := by
  intro hm
  have hc : l.contains x = true := List.elem_iff.mpr hm
  rw [hc] at h
  cases h

theorem toBytesEntries_roundTrip (specs : List MapEntrySpec)
    (d : List (String × Value))
    (hel : ∀ p ∈ d, ∀ spec, specForName specs p.1 = some spec →
      hasTy p.2 (specTy spec) = true →
      ∃ out, toBytes (specTy spec) p.2 = .ok out ∧
        ∀ rest, read (specTy spec) (out ++ rest) = .ok (p.2, rest))
    (hty : hasTyEntries d specs = true)
    (hdk : distinctKeys specs = true)
    (hdn : distinctNames (d.map Prod.fst) = true) :
    ∃ body, toBytesEntries specs d = .ok body ∧
      ∀ rest acc, (∀ x ∈ d.map Prod.fst, x ∉ acc.map Prod.fst) →
        readEntries specs d.length (body ++ rest) acc = .ok (acc ++ d, rest) := by
  induction d with
  | nil =>
    exact ⟨[], by simp [toBytesEntries],
      fun rest acc _ => by simp [readEntries]⟩
  | cons p d ih =>
    obtain ⟨n, v⟩ := p
    simp only [hasTyEntries, Bool.and_eq_true] at hty
    obtain ⟨hty1, hty2⟩ := hty
    rcases hspec : specForName specs n with _ | spec
    · rw [hspec] at hty1
      simp at hty1
    · rw [hspec] at hty1
      obtain ⟨hname, hmem⟩ := specForName_eq_some hspec
      obtain ⟨out, hout, hread⟩ :=
        hel (n, v) (List.mem_cons_self _ _) spec hspec hty1
      simp only [List.map_cons, distinctNames, Bool.and_eq_true,
        Bool.not_eq_true'] at hdn
      obtain ⟨hn_not_tail, hdn2⟩ := hdn
      obtain ⟨body, hbody, hreadE⟩ :=
        ih (fun q hq spec2 h1 h2 => hel q (List.mem_cons_of_mem _ hq) spec2 h1 h2)
          hty2 hdn2
      refine ⟨UnsignedInt.toBytes (specKey spec) ++ out ++ body, ?_, ?_⟩
      · simp only [toBytesEntries, hspec, hout, hbody]
      · intro rest acc hdisj
        have hkey : specForKey specs (specKey spec) = some spec :=
          specForKey_of_mem hdk hmem
        simp only [List.length_cons, readEntries, List.append_assoc,
          UnsignedInt.read_toBytes]
        split
        · rename_i heq
          simp only [UnsignedInt.read_toBytes] at heq
          rw [hkey] at heq
          cases heq
        · rename_i spec2 heq
          simp only [UnsignedInt.read_toBytes] at heq
          rw [hkey] at heq
          injection heq with h3
          subst h3
          rw [hread (body ++ rest)]
          simp only [hname]
          rw [mem_dictInsert_keys_append acc n v
              (contains_eq_false_of_not_mem (hdisj n (by simp)))]
          have hn_notin_d : n ∉ d.map Prod.fst :=
            not_mem_of_contains_eq_false hn_not_tail
          rw [hreadE rest (acc ++ [(n, v)]) ?_]
          · simp
          · intro x hx
            simp only [List.map_append, List.map_cons, List.map_nil,
              List.mem_append, List.mem_singleton]
            rintro (hxa | rfl)
            · exact hdisj x (List.mem_cons_of_mem _ hx) hxa
            · exact hn_notin_d hx

theorem sizeOf_snd_lt_of_mem {d : List (String × Value)} {p : String × Value}
    (h : p ∈ d) : sizeOf p.2 < sizeOf d := by
  have h1 : sizeOf p < sizeOf d := List.sizeOf_lt_of_mem h
  obtain ⟨a, b⟩ := p
  simp only [Prod.mk.sizeOf_spec] at h1
  simp only
  omega

/-- Round-trip at every codec, with any trailing bytes: encoding a
well-typed value succeeds, and decoding the result from a stream that
continues with `rest` returns the value and leaves exactly `rest`. -/
theorem roundTrip_sized :
    ∀ N t v, sizeOf v ≤ N → hasTy v t = true →
      ∃ out, toBytes t v = .ok out ∧
        ∀ rest, read t (out ++ rest) = .ok (v, rest) := by
  intro N
  induction N using Nat.strong_induction_on with
  | _ N ih =>
    intro t v hsz hty
    cases v with
    | uint n =>
      cases t <;> simp [hasTy] at hty
      exact ⟨UnsignedInt.toBytes n, by simp [toBytes], fun rest => by
        simp [read, UnsignedInt.read_toBytes]⟩
    | sint i =>
      cases t <;> simp [hasTy] at hty
      exact ⟨SignedInt.toBytes i, by simp [toBytes], fun rest => by
        simp [read, SignedInt.roundtrip_int]⟩
    | bool b =>
      cases t <;> simp [hasTy] at hty
      exact ⟨Boolean.toBytes b, by simp [toBytes], fun rest => by
        simp [read, Boolean.roundtrip_bool]⟩
    | str s =>
      cases t <;> simp [hasTy] at hty
      exact ⟨Str.toBytes s, by simp [toBytes], fun rest => by
        simp [read, Str.roundtrip_string]⟩
    | list vs =>
      cases t <;> simp [hasTy] at hty
      rename_i t'
      have hszl : sizeOf vs < N := by
        have : sizeOf (Value.list vs) = 1 + sizeOf vs := by simp
        omega
      have hel : ∀ v₁ ∈ vs, hasTy v₁ t' = true →
          ∃ out, toBytes t' v₁ = .ok out ∧
            ∀ rest, read t' (out ++ rest) = .ok (v₁, rest) := by
        intro v₁ hv₁ hty₁
        exact ih (sizeOf v₁)
          (lt_trans (List.sizeOf_lt_of_mem hv₁) hszl) t' v₁ (le_refl _) hty₁
      obtain ⟨body, hbody, hreadl⟩ := toBytesList_roundTrip t' vs hel hty
      refine ⟨UnsignedInt.toBytes vs.length ++ body, ?_, ?_⟩
      · simp only [toBytes, hbody]
      · intro rest
        simp only [read, List.append_assoc, UnsignedInt.read_toBytes, hreadl]
    | opt ov =>
      cases ov with
      | none =>
        cases t <;> simp [hasTy] at hty
        rename_i t'
        refine ⟨Boolean.toBytes false, by simp [toBytes], fun rest => by
          simp [read, Boolean.roundtrip_bool]⟩
      | some w =>
        cases t <;> simp [hasTy] at hty
        rename_i t'
        have hw : sizeOf w < N := by
          have : sizeOf (Value.opt (some w)) = 1 + (1 + sizeOf w) := by simp
          omega
        obtain ⟨out, hout, hread⟩ := ih (sizeOf w) hw t' w (le_refl _) hty
        refine ⟨Boolean.toBytes true ++ out, ?_, ?_⟩
        · simp only [toBytes, hout]
        · intro rest
          simp only [read, List.append_assoc, Boolean.roundtrip_bool, hread,
            if_true]
    | map d =>
      cases t <;> simp [hasTy] at hty
      rename_i specs
      obtain ⟨⟨⟨⟨⟨hdn, hsn⟩, hdk⟩, hsub1⟩, hsub2⟩, hent⟩ := hty
      have hszd : sizeOf d < N := by
        have : sizeOf (Value.map d) = 1 + sizeOf d := by simp
        omega
      have hel : ∀ p ∈ d, ∀ spec, specForName specs p.1 = some spec →
          hasTy p.2 (specTy spec) = true →
          ∃ out, toBytes (specTy spec) p.2 = .ok out ∧
            ∀ rest, read (specTy spec) (out ++ rest) = .ok (p.2, rest) := by
        intro p hp spec _ hty2
        exact ih (sizeOf p.2) (lt_trans (sizeOf_snd_lt_of_mem hp) hszd)
          (specTy spec) p.2 (le_refl _) hty2
      obtain ⟨body, hbody, hreadE⟩ :=
        toBytesEntries_roundTrip specs d hel hent hdk hdn
      have hdiff : symmDiffNames (dedupNames (d.map Prod.fst))
          (dedupNames (specs.map specName)) = [] := by
        apply symmDiffNames_nil
        · intro x hx
          rw [mem_dedupNames]
          exact (subsetNames_iff _ _).mp hsub1 x ((mem_dedupNames _ _).mp hx)
        · intro y hy
          rw [mem_dedupNames]
          exact (subsetNames_iff _ _).mp hsub2 y ((mem_dedupNames _ _).mp hy)
      refine ⟨UnsignedInt.toBytes d.length ++ body, ?_, ?_⟩
      · simp only [toBytes, hbody, hdiff, List.isEmpty_nil, if_true]
      · intro rest
        have hE := hreadE rest [] (by simp)
        simp only [List.append_nil] at hE
        simp only [read, List.append_assoc, UnsignedInt.read_toBytes, hE]
        simp

/-- Round-trip for every codec and every well-typed value. -/
theorem toBytes_read (t : Ty) (v : Value) (hty : hasTy v t = true) :
    ∃ out, toBytes t v = .ok out ∧
      ∀ rest, read t (out ++ rest) = .ok (v, rest) :=
  roundTrip_sized (sizeOf v) t v (le_refl _) hty

theorem hasTyEntries_iff (specs : List MapEntrySpec) :
    ∀ d : List (String × Value), (hasTyEntries d specs = true ↔
      ∀ p ∈ d, ∃ spec, specForName specs p.1 = some spec ∧
        hasTy p.2 (specTy spec) = true) := by
  intro d
  induction d with
  | nil => simp [hasTyEntries]
  | cons p d ih =>
    obtain ⟨n, v⟩ := p
    simp only [hasTyEntries, Bool.and_eq_true, ih]
    constructor
    · rintro ⟨h1, h2⟩
      intro q hq
      rcases List.mem_cons.mp hq with rfl | hq2
      · rcases hspec : specForName specs n with _ | spec
        · rw [hspec] at h1; simp at h1
        · rw [hspec] at h1
          exact ⟨spec, rfl, h1⟩
      · exact h2 q hq2
    · intro h
      constructor
      · obtain ⟨spec, hspec, hty⟩ := h (n, v) (List.mem_cons_self _ _)
        rw [hspec]
        exact hty
      · intro q hq
        exact h q (List.mem_cons_of_mem _ hq)

theorem hasTy_perm {d d' : List (String × Value)}
    {specs : List MapEntrySpec} (hperm : d.Perm d')
    (hty : hasTy (.map d) (.map specs) = true) :
    hasTy (.map d') (.map specs) = true := by
  simp only [hasTy, Bool.and_eq_true] at hty ⊢
  obtain ⟨⟨⟨⟨⟨hdn, hsn⟩, hdk⟩, hsub1⟩, hsub2⟩, hent⟩ := hty
  have hmperm : (d.map Prod.fst).Perm (d'.map Prod.fst) := hperm.map Prod.fst
  refine ⟨⟨⟨⟨⟨?_, hsn⟩, hdk⟩, ?_⟩, ?_⟩, ?_⟩
  · rw [distinctNames_iff] at hdn ⊢
    exact hmperm.nodup hdn
  · rw [subsetNames_iff] at hsub1 ⊢
    intro x hx
    exact hsub1 x (hmperm.mem_iff.mpr hx)
  · rw [subsetNames_iff] at hsub2 ⊢
    intro x hx
    exact hmperm.mem_iff.mp (hsub2 x hx)
  · rw [hasTyEntries_iff] at hent ⊢
    intro p hp
    exact hent p (hperm.mem_iff.mpr hp)

theorem mem_symmDiffNames (xs ys : List String) (x : String) :
    x ∈ symmDiffNames xs ys ↔
      (x ∈ xs ∧ x ∉ ys) ∨ (x ∈ ys ∧ x ∉ xs) := by
  unfold symmDiffNames
  simp only [List.mem_append, List.mem_filter, Bool.not_eq_true']
  constructor
  · rintro (⟨h1, h2⟩ | ⟨h1, h2⟩)
    · exact Or.inl ⟨h1, not_mem_of_contains_eq_false h2⟩
    · exact Or.inr ⟨h1, not_mem_of_contains_eq_false h2⟩
  · rintro (⟨h1, h2⟩ | ⟨h1, h2⟩)
    · exact Or.inl ⟨h1, contains_eq_false_of_not_mem h2⟩
    · exact Or.inr ⟨h1, contains_eq_false_of_not_mem h2⟩

theorem toBytesEntries_ok (specs : List MapEntrySpec)
    (d : List (String × Value)) (hty : hasTyEntries d specs = true) :
    ∃ body, toBytesEntries specs d = .ok body := by
  induction d with
  | nil => exact ⟨[], by simp [toBytesEntries]⟩
  | cons p d ih =>
    obtain ⟨n, v⟩ := p
    simp only [hasTyEntries, Bool.and_eq_true] at hty
    obtain ⟨hty1, hty2⟩ := hty
    rcases hspec : specForName specs n with _ | spec
    · rw [hspec] at hty1; simp at hty1
    · rw [hspec] at hty1
      obtain ⟨out, hout, _⟩ := toBytes_read (specTy spec) v hty1
      obtain ⟨body, hbody⟩ := ih hty2
      exact ⟨UnsignedInt.toBytes (specKey spec) ++ out ++ body,
        by simp only [toBytesEntries, hspec, hout, hbody]⟩

/-- C8: for every codec (scalar, list, optional or record), every
well-typed value and every trailing byte sequence, decoding from the
single forward stream `encode(v) ++ rest` returns `v` and consumes exactly
the encoded bytes, leaving `rest` for subsequent reads. -/
theorem decode_consumes_encoding_exactly (t : Ty) (v : Value)
    (rest : List Nat) (hty : hasTy v t = true) :
    ∃ out, toBytes t v = .ok out ∧ read t (out ++ rest) = .ok (v, rest) := by
  obtain ⟨out, h1, h2⟩ := toBytes_read t v hty
  exact ⟨out, h1, h2 rest⟩

theorem decode_consumes_encoding_exactly_witness :
    hasTy (.list [.uint 5]) (.list .uint) = true ∧
      ∃ out, toBytes (.list .uint) (.list [.uint 5]) = .ok out ∧
        read (.list .uint) (out ++ [99]) = .ok (.list [.uint 5], [99]) :=
  ⟨by simp [hasTy, hasTyList],
    decode_consumes_encoding_exactly (.list .uint) (.list [.uint 5]) [99]
      (by simp [hasTy, hasTyList])⟩

/-- C1: for a record type with a record-typed field, encoding a mapping
that supplies exactly the declared field names and decoding the result
yields the very mapping back, in whichever iteration order the mapping is
traversed: both an order `d` and any reordering `d'` of it encode
successfully and decode to themselves (hence to mappings that are equal
as Python dicts). -/
theorem record_roundtrip_order_independent
    (specs : List MapEntrySpec) (d d' : List (String × Value))
    (hnested : ∃ spec ∈ specs, ∃ inner, specTy spec = Ty.map inner)
    (hty : hasTy (.map d) (.map specs) = true) (hperm : d.Perm d') :
    ∃ out out', toBytes (.map specs) (.map d) = .ok out ∧
      toBytes (.map specs) (.map d') = .ok out' ∧
      read (.map specs) out = .ok (.map d, []) ∧
      read (.map specs) out' = .ok (.map d', []) := by
  have hty' := hasTy_perm hperm hty
  obtain ⟨out, h1, h2⟩ := toBytes_read _ _ hty
  obtain ⟨out', h1', h2'⟩ := toBytes_read _ _ hty'
  refine ⟨out, out', h1, h1', ?_, ?_⟩
  · have := h2 []
    simpa using this
  · have := h2' []
    simpa using this

theorem record_roundtrip_order_independent_witness :
    (∃ spec ∈ ([(1, "a", Ty.uint), (2, "m", Ty.map [(1, "x", Ty.uint)])] :
        List MapEntrySpec), ∃ inner, specTy spec = Ty.map inner) ∧
    hasTy (.map [("a", .uint 1), ("m", .map [("x", .uint 2)])])
      (.map [(1, "a", Ty.uint), (2, "m", Ty.map [(1, "x", Ty.uint)])]) = true ∧
    (∃ out out',
      toBytes (.map [(1, "a", Ty.uint), (2, "m", Ty.map [(1, "x", Ty.uint)])])
        (.map [("a", .uint 1), ("m", .map [("x", .uint 2)])]) = .ok out ∧
      toBytes (.map [(1, "a", Ty.uint), (2, "m", Ty.map [(1, "x", Ty.uint)])])
        (.map [("m", .map [("x", .uint 2)]), ("a", .uint 1)]) = .ok out' ∧
      read (.map [(1, "a", Ty.uint), (2, "m", Ty.map [(1, "x", Ty.uint)])])
        out = .ok (.map [("a", .uint 1), ("m", .map [("x", .uint 2)])], []) ∧
      read (.map [(1, "a", Ty.uint), (2, "m", Ty.map [(1, "x", Ty.uint)])])
        out' = .ok (.map [("m", .map [("x", .uint 2)]), ("a", .uint 1)], [])) :=
  ⟨⟨(2, "m", Ty.map [(1, "x", Ty.uint)]), by simp, [(1, "x", Ty.uint)], rfl⟩,
    by simp [hasTy, hasTyEntries, hasTyList, distinctNames, distinctKeys,
      subsetNames, specForName, specName, specKey, specTy],
    record_roundtrip_order_independent _ _ _
      ⟨(2, "m", Ty.map [(1, "x", Ty.uint)]), by simp, [(1, "x", Ty.uint)], rfl⟩
      (by simp [hasTy, hasTyEntries, hasTyList, distinctNames, distinctKeys,
        subsetNames, specForName, specName, specKey, specTy])
      (List.Perm.swap ("m", Value.map [("x", Value.uint 2)])
        ("a", Value.uint 1) [])⟩

/-- C4: encoding a mapping that omits at least one declared field fails
with an error and produces no bytes, whatever else the mapping holds; and
when its entries are otherwise legitimate (declared names, well-typed
values) the error is the incomplete-value error carrying exactly the set
of missing names. -/
theorem encode_missing_field_incomplete :
    (∀ (specs : List MapEntrySpec) (d : List (String × Value)),
      (∃ y ∈ specs.map specName, y ∉ d.map Prod.fst) →
      ∃ e, toBytes (.map specs) (.map d) = .error e) ∧
    (∀ (specs : List MapEntrySpec) (d : List (String × Value)),
      hasTyEntries d specs = true →
      (∀ x ∈ d.map Prod.fst, x ∈ specs.map specName) →
      (∃ y ∈ specs.map specName, y ∉ d.map Prod.fst) →
      ∃ missing,
        toBytes (.map specs) (.map d) = .error (.incompleteValue missing) ∧
        missing ≠ [] ∧
        ∀ x, x ∈ missing ↔
          (x ∈ specs.map specName ∧ x ∉ d.map Prod.fst)) := by
  have hmemdiff : ∀ (specs : List MapEntrySpec) (d : List (String × Value)) y,
      y ∈ specs.map specName → y ∉ d.map Prod.fst →
      y ∈ symmDiffNames (dedupNames (d.map Prod.fst))
        (dedupNames (specs.map specName)) := by
    intro specs d y hy1 hy2
    rw [mem_symmDiffNames]
    exact Or.inr ⟨(mem_dedupNames _ _).mpr hy1,
      fun hc => hy2 ((mem_dedupNames _ _).mp hc)⟩
  have hisEmpty : ∀ (specs : List MapEntrySpec) (d : List (String × Value)) y,
      y ∈ specs.map specName → y ∉ d.map Prod.fst →
      (symmDiffNames (dedupNames (d.map Prod.fst))
        (dedupNames (specs.map specName))).isEmpty = false := by
    intro specs d y hy1 hy2
    have hymem := hmemdiff specs d y hy1 hy2
    rcases hl : symmDiffNames (dedupNames (d.map Prod.fst))
        (dedupNames (specs.map specName)) with _ | ⟨a, l⟩
    · rw [hl] at hymem
      cases hymem
    · simp
  constructor
  · intro specs d hmiss
    obtain ⟨y, hy1, hy2⟩ := hmiss
    rcases h : toBytesEntries specs d with e | body
    · exact ⟨e, by simp only [toBytes, h]⟩
    · refine ⟨.incompleteValue (symmDiffNames (dedupNames (d.map Prod.fst))
        (dedupNames (specs.map specName))), ?_⟩
      simp only [toBytes, h, hisEmpty specs d y hy1 hy2]
      simp
  · intro specs d hty hsub hmiss
    obtain ⟨body, hbody⟩ := toBytesEntries_ok specs d hty
    obtain ⟨y, hy1, hy2⟩ := hmiss
    have hdiffmem : ∀ x, x ∈ symmDiffNames (dedupNames (d.map Prod.fst))
        (dedupNames (specs.map specName)) ↔
        (x ∈ specs.map specName ∧ x ∉ d.map Prod.fst) := by
      intro x
      rw [mem_symmDiffNames]
      constructor
      · rintro (⟨h1, h2⟩ | ⟨h1, h2⟩)
        · rw [mem_dedupNames] at h1
          exact absurd ((mem_dedupNames _ _).mpr (hsub x h1)) h2
        · rw [mem_dedupNames] at h1
          refine ⟨h1, fun hc => h2 ((mem_dedupNames _ _).mpr hc)⟩
      · rintro ⟨h1, h2⟩
        exact Or.inr ⟨(mem_dedupNames _ _).mpr h1,
          fun hc => h2 ((mem_dedupNames _ _).mp hc)⟩
    have hne : symmDiffNames (dedupNames (d.map Prod.fst))
        (dedupNames (specs.map specName)) ≠ [] := by
      intro hnil
      have := hmemdiff specs d y hy1 hy2
      rw [hnil] at this
      cases this
    refine ⟨_, ?_, hne, hdiffmem⟩
    simp only [toBytes, hbody, hisEmpty specs d y hy1 hy2]
    simp

theorem encode_missing_field_incomplete_witness :
    ((∃ y ∈ ([(1, "a", Ty.uint), (2, "b", Ty.uint)] :
        List MapEntrySpec).map specName,
      y ∉ [("a", Value.uint 3)].map Prod.fst) ∧
     ∃ e, toBytes (.map [(1, "a", Ty.uint), (2, "b", Ty.uint)])
        (.map [("a", Value.uint 3)]) = .error e) ∧
    (hasTyEntries [("a", Value.uint 3)]
        [(1, "a", Ty.uint), (2, "b", Ty.uint)] = true ∧
     (∀ x ∈ ([("a", Value.uint 3)].map Prod.fst),
       x ∈ ([(1, "a", Ty.uint), (2, "b", Ty.uint)] :
         List MapEntrySpec).map specName) ∧
     ∃ missing, toBytes (.map [(1, "a", Ty.uint), (2, "b", Ty.uint)])
          (.map [("a", Value.uint 3)]) = .error (.incompleteValue missing) ∧
        missing ≠ [] ∧
        ∀ x, x ∈ missing ↔
          (x ∈ ([(1, "a", Ty.uint), (2, "b", Ty.uint)] :
            List MapEntrySpec).map specName ∧
           x ∉ [("a", Value.uint 3)].map Prod.fst)) :=
  ⟨⟨⟨"b", by simp [specName], by simp⟩,
    encode_missing_field_incomplete.1 _ _ ⟨"b", by simp [specName], by simp⟩⟩,
   by simp [hasTyEntries, hasTy, specForName, specName, specTy],
   by simp [specName],
   encode_missing_field_incomplete.2 _ _
     (by simp [hasTyEntries, hasTy, specForName, specName, specTy])
     (by simp [specName])
     ⟨"b", by simp [specName], by simp⟩⟩

/-- C5: whenever the record decoder is about to read an entry whose key
has no spec — after arbitrary decoding progress `acc` — it fails at once
with the unknown-key error, discarding all progress; in particular a
record payload whose first entry carries an undeclared key fails no
matter what bytes follow. -/
theorem decode_unknown_key_fails :
    (∀ (specs : List MapEntrySpec) (k n : Nat) (bs : List Nat)
        (acc : List (String × Value)), specForKey specs k = none →
      readEntries specs (n + 1) (UnsignedInt.toBytes k ++ bs) acc =
        .error (.unknownKey k)) ∧
    (∀ (specs : List MapEntrySpec) (k m : Nat) (junk : List Nat),
      specForKey specs k = none →
      read (.map specs)
        (UnsignedInt.toBytes (m + 1) ++ UnsignedInt.toBytes k ++ junk) =
          .error (.unknownKey k)) := by
  have hgen : ∀ (specs : List MapEntrySpec) (k n : Nat) (bs : List Nat)
      (acc : List (String × Value)), specForKey specs k = none →
      readEntries specs (n + 1) (UnsignedInt.toBytes k ++ bs) acc =
        .error (.unknownKey k) := by
    intro specs k n bs acc hk
    simp only [readEntries, UnsignedInt.read_toBytes]
    split
    · rename_i heq
      rfl
    · rename_i spec heq
      simp only [UnsignedInt.read_toBytes] at heq
      rw [hk] at heq
      cases heq
  refine ⟨hgen, ?_⟩
  intro specs k m junk hk
  simp only [read, List.append_assoc, UnsignedInt.read_toBytes]
  rw [hgen specs k m junk [] hk]

theorem decode_unknown_key_fails_witness :
    (specForKey [(1, "a", Ty.uint)] 9 = none ∧
      readEntries [(1, "a", Ty.uint)] 1 (UnsignedInt.toBytes 9 ++ [7])
        [("a", Value.uint 4)] = .error (.unknownKey 9)) ∧
    (specForKey [(1, "a", Ty.uint)] 9 = none ∧
      read (.map [(1, "a", Ty.uint)])
        (UnsignedInt.toBytes 1 ++ UnsignedInt.toBytes 9 ++ [7]) =
          .error (.unknownKey 9)) :=
  ⟨⟨rfl, decode_unknown_key_fails.1 [(1, "a", Ty.uint)] 9 0 [7]
      [("a", Value.uint 4)] rfl⟩,
   ⟨rfl, decode_unknown_key_fails.2 [(1, "a", Ty.uint)] 9 0 [7] rfl⟩⟩

/-- C10: decoding a record payload in which the same declared key appears
twice succeeds, and the resulting dict holds the value of the last
occurrence — `map_data[name] = value` overwrites the earlier one. -/
theorem decode_duplicate_key_last_wins
    (specs : List MapEntrySpec) (k : Nat) (nm : String) (t : Ty)
    (v1 v2 : Value) (rest : List Nat)
    (hfind : specForKey specs k = some (k, nm, t))
    (h1 : hasTy v1 t = true) (h2 : hasTy v2 t = true) :
    ∃ b1 b2, toBytes t v1 = .ok b1 ∧ toBytes t v2 = .ok b2 ∧
      read (.map specs)
        (UnsignedInt.toBytes 2 ++ UnsignedInt.toBytes k ++ b1 ++
          UnsignedInt.toBytes k ++ b2 ++ rest) =
        .ok (.map [(nm, v2)], rest) := by
  obtain ⟨b1, hb1, hr1⟩ := toBytes_read t v1 h1
  obtain ⟨b2, hb2, hr2⟩ := toBytes_read t v2 h2
  refine ⟨b1, b2, hb1, hb2, ?_⟩
  simp only [read, List.append_assoc, UnsignedInt.read_toBytes]
  have hstep : ∀ (m : Nat) (tail : List Nat) (acc : List (String × Value)),
      readEntries specs (m + 1) (UnsignedInt.toBytes k ++ (b1 ++ tail)) acc =
        readEntries specs m tail (dictInsert acc nm v1) := by
    intro m tail acc
    simp only [readEntries, UnsignedInt.read_toBytes]
    split
    · rename_i heq
      simp only [UnsignedInt.read_toBytes] at heq
      rw [hfind] at heq
      cases heq
    · rename_i spec heq
      simp only [UnsignedInt.read_toBytes] at heq
      rw [hfind] at heq
      injection heq with h3
      subst h3
      simp only [specTy, specName]
      rw [hr1 tail]
  have hstep2 : ∀ (m : Nat) (tail : List Nat) (acc : List (String × Value)),
      readEntries specs (m + 1) (UnsignedInt.toBytes k ++ (b2 ++ tail)) acc =
        readEntries specs m tail (dictInsert acc nm v2) := by
    intro m tail acc
    simp only [readEntries, UnsignedInt.read_toBytes]
    split
    · rename_i heq
      simp only [UnsignedInt.read_toBytes] at heq
      rw [hfind] at heq
      cases heq
    · rename_i spec heq
      simp only [UnsignedInt.read_toBytes] at heq
      rw [hfind] at heq
      injection heq with h3
      subst h3
      simp only [specTy, specName]
      rw [hr2 tail]
  rw [hstep 1 (UnsignedInt.toBytes k ++ (b2 ++ rest)) []]
  rw [hstep2 0 rest (dictInsert [] nm v1)]
  have hd1 : dictInsert [] nm v1 = [(nm, v1)] := by simp [dictInsert]
  have hd2 : dictInsert [(nm, v1)] nm v2 = [(nm, v2)] := by
    simp [dictInsert]
  rw [hd1, hd2]
  simp [readEntries]

theorem decode_duplicate_key_last_wins_witness :
    specForKey [(1, "a", Ty.uint)] 1 = some (1, "a", Ty.uint) ∧
    hasTy (.uint 5) Ty.uint = true ∧ hasTy (.uint 7) Ty.uint = true ∧
    ∃ b1 b2, toBytes Ty.uint (.uint 5) = .ok b1 ∧
      toBytes Ty.uint (.uint 7) = .ok b2 ∧
      read (.map [(1, "a", Ty.uint)])
        (UnsignedInt.toBytes 2 ++ UnsignedInt.toBytes 1 ++ b1 ++
          UnsignedInt.toBytes 1 ++ b2 ++ []) =
        .ok (.map [("a", .uint 7)], []) :=
  ⟨rfl, by simp [hasTy], by simp [hasTy],
    decode_duplicate_key_last_wins [(1, "a", Ty.uint)] 1 "a" Ty.uint
      (.uint 5) (.uint 7) [] rfl (by simp [hasTy]) (by simp [hasTy])⟩

/-- C7: the schema line `2. maybesomephones: optional(list string)`
resolves to field key `2`, name `maybesomephones`, and type
`Optional(List(String))` — the recursive resolver wraps `list string`
inside `optional`. -/
theorem schema_line_optional_list_string :
    resolve_line "2. maybesomephones: optional(list string)" =
      .ok (2, "maybesomephones", Ty.opt (Ty.list Ty.str)) := by
  rfl
